import Mathlib

/-!
Shallow embedding of the `compressor-system` codecs (RLE, Huffman, LZ77,
Hybrid) and of the algorithm registry, together with theorems settling the
specification claims.  Machine integers are modelled as `Nat` with explicit
`% 2^w` where C++ overflow or narrowing matters; fallible operations return
`Except String`, mirroring `CompressionResult`'s success flag and message.
-/

namespace Compressor

/-- A byte buffer (`ByteVector`): a length together with an index function.
Out-of-range reads never occur in the embedded code paths without a guard,
mirroring the C++ which always bounds-checks before `operator[]`. -/
structure ByteVec where
  size : Nat
  get : Nat → Nat

/-- View a list of bytes as a `ByteVec`. -/
def ByteVec.ofList (l : List Nat) : ByteVec :=
  ⟨l.length, fun i => l.getD i 0⟩

/-- Big-endian 32-bit serialization: the four `push_back((n >> k) & 0xFF)`
store operations used by every codec frame. -/
def be32 (n : Nat) : List Nat :=
  [(n >>> 24) &&& 255, (n >>> 16) &&& 255, (n >>> 8) &&& 255, n &&& 255]

/-- The error message produced by every codec for zero-length input
(the spec's `EmptyInput` failure kind). -/
def emptyInputMsg : String := "Input data is empty"

/-- Decidable equality of results, for evaluating concrete scenarios. -/
instance (priority := low) {ε α : Type} [DecidableEq ε] [DecidableEq α] :
    DecidableEq (Except ε α) := fun a b =>
  match a, b with
  | .ok x, .ok y =>
    if h : x = y then .isTrue (by rw [h]) else .isFalse (by simp [h])
  | .error x, .error y =>
    if h : x = y then .isTrue (by rw [h]) else .isFalse (by simp [h])
  | .ok _, .error _ => .isFalse (by simp)
  | .error _, .ok _ => .isFalse (by simp)

/-! ## LZ77 codec (`src/algorithms/lz77/lz77_algorithm.{hpp,cpp}`) -/

/-- `LZ77Match`: `distance` and `length` are stored in `uint16_t` and
`uint8_t` fields; the constructors in the embedding only ever supply
in-range values exactly where the C++ does. -/
structure LZ77Match where
  distance : Nat
  length : Nat
  next_char : Nat
deriving DecidableEq, Repr

/-- `LZ77Match::is_literal`. -/
def LZ77Match.is_literal (m : LZ77Match) : Bool := m.length == 0

def WINDOW_SIZE : Nat := 4096
def LOOKAHEAD_SIZE : Nat := 18
def MIN_MATCH_LENGTH : Nat := 3

/-- `HashSearch::hash3`: `((a << 16) | (b << 8) | c) & HASH_MASK`. -/
def hash3 (a b c : Nat) : Nat :=
  ((a <<< 16) ||| (b <<< 8) ||| c) &&& 4095

/-- `HashSearch::hash_table_`: one chain of positions per hash value.  The
C++ `std::vector<std::vector<size_t>>(4096)` is a total map from hash values
to chains, all initially empty; it is represented here as an association
list with absent keys denoting `[]` (the same map, extensionally). -/
abbrev HashTable : Type := List (Nat × List Nat)

def emptyTable : HashTable := []

/-- Read a chain from the table (`hash_table_[hash]`). -/
def htGet (tbl : HashTable) (h : Nat) : List Nat :=
  match tbl.find? (fun e => e.1 == h) with
  | some e => e.2
  | none => []

/-- Overwrite a chain in the table (`hash_table_[hash] = chain`); slots keep
their place, as in the C++ fixed array, and a key not present yet is added
at the end. -/
def htSet : HashTable → Nat → List Nat → HashTable
  | [], h, chain => [(h, chain)]
  | e :: rest, h, chain =>
    if e.1 = h then (h, chain) :: rest else e :: htSet rest h chain

/-- `HashSearch::update`: append `pos` to its trigram's chain, evicting the
oldest entry when the chain exceeds 16 positions. -/
def htUpdate (input : ByteVec) (tbl : HashTable) (pos : Nat) : HashTable :=
  if pos + 2 ≥ input.size then tbl
  else
    let h := hash3 (input.get pos) (input.get (pos + 1)) (input.get (pos + 2))
    let chain := htGet tbl h ++ [pos]
    let chain := if chain.length > 16 then chain.tail else chain
    htSet tbl h chain

/-- The inner byte-comparison loop of `find_match`: counts matching bytes
starting at offset `k`, with `fuel` bytes still allowed. -/
def matchLenFrom (input : ByteVec) (c p : Nat) : Nat → Nat → Nat
  | k, 0 => k
  | k, fuel + 1 =>
    if input.get (c + k) = input.get (p + k) then
      matchLenFrom input c p (k + 1) fuel
    else k

/-- The chain scan of `HashSearch::find_match`, iterating candidates newest
first (the C++ iterates `rbegin..rend`), with the `distance > WINDOW_SIZE`
break.  `distance` is narrowed to `uint16_t`, hence the `% 65536`. -/
def scanChain (input : ByteVec) (pos : Nat) : List Nat → Nat × Nat → Nat × Nat
  | [], best => best
  | c :: rest, best =>
    if c ≥ pos then scanChain input pos rest best
    else
      let d := (pos - c) % 65536
      if d > WINDOW_SIZE then best
      else
        let maxLen := min LOOKAHEAD_SIZE (input.size - pos)
        let ml := matchLenFrom input c pos 0 maxLen
        if ml > best.2 then scanChain input pos rest (d, ml)
        else scanChain input pos rest best

/-- `HashSearch::find_match`. -/
def find_match (tbl : HashTable) (input : ByteVec) (pos : Nat) : LZ77Match :=
  if pos + MIN_MATCH_LENGTH > input.size then ⟨0, 0, 0⟩
  else
    let h := hash3 (input.get pos) (input.get (pos + 1)) (input.get (pos + 2))
    let best := scanChain input pos (htGet tbl h).reverse (0, 0)
    if best.2 ≥ MIN_MATCH_LENGTH then
      let nc := if pos + best.2 < input.size then input.get (pos + best.2) else 0
      ⟨best.1, best.2, nc⟩
    else ⟨0, 0, 0⟩

/-- The hash-table refresh after a match is accepted: `update(input, i + j)`
for `j = 0, 1, …` while `j < len ∧ i + j + 2 < size`; since `htUpdate` is a
no-op exactly when `i + j + 2 ≥ size`, folding over all `j < len` is the
same function. -/
def htUpdateRange (input : ByteVec) (tbl : HashTable) (i : Nat) : Nat → HashTable
  | 0 => tbl
  | j + 1 => htUpdate input (htUpdateRange input tbl i j) (i + j)

/-- The parse loop of `LZ77Algorithm::compress` (lines 38–67): one step per
iteration, fuel-bounded (the position strictly increases, so
`input.size + 1` fuel always suffices). -/
def lz77Parse (input : ByteVec) : Nat → Nat → HashTable → List LZ77Match →
    List LZ77Match
  | 0, _, _, acc => acc.reverse
  | fuel + 1, i, tbl, acc =>
    if i < input.size then
      let tbl := if i ≥ 2 then htUpdate input tbl (i - 2) else tbl
      let m := find_match tbl input i
      if m.is_literal then
        lz77Parse input fuel (i + 1) tbl (⟨0, 0, input.get i⟩ :: acc)
      else
        let nc := if i + m.length < input.size then input.get (i + m.length) else 0
        let tbl := htUpdateRange input tbl i m.length
        lz77Parse input fuel (i + m.length + 1) tbl (⟨m.distance, m.length, nc⟩ :: acc)
    else acc.reverse

/-- The token stream produced by `LZ77Algorithm::compress` on `input`. -/
def lz77_tokens (input : ByteVec) : List LZ77Match :=
  lz77Parse input (input.size + 1) 0 emptyTable []

/-- One iteration of the parse loop as a state transformer on
`(i, hash_table_)`, extracted verbatim from the body of `lz77Parse` so that
long parses can be evaluated in stages. -/
def nextState (input : ByteVec) (s : Nat × HashTable) : Nat × HashTable :=
  let tbl := if s.1 ≥ 2 then htUpdate input s.2 (s.1 - 2) else s.2
  let m := find_match tbl input s.1
  if m.is_literal then (s.1 + 1, tbl)
  else (s.1 + m.length + 1, htUpdateRange input tbl s.1 m.length)

/-- The token the parse loop emits from state `(i, hash_table_)`, extracted
verbatim from the body of `lz77Parse`. -/
def emitTok (input : ByteVec) (s : Nat × HashTable) : LZ77Match :=
  let tbl := if s.1 ≥ 2 then htUpdate input s.2 (s.1 - 2) else s.2
  let m := find_match tbl input s.1
  if m.is_literal then ⟨0, 0, input.get s.1⟩
  else ⟨m.distance, m.length,
    if s.1 + m.length < input.size then input.get (s.1 + m.length) else 0⟩

/-- A 65539-byte input: the trigram `01 02 03` at offset 0, zeros up to
offset 65535, and `01 02 03` again at offset 65536.  The second occurrence
sees the first through a hash chain whose only entry is position 0, at true
distance 65536 — which the `uint16_t` narrowing wraps to 0. -/
def bigC9 : ByteVec :=
  ⟨65539, fun i => if i % 65536 < 3 then i % 65536 + 1 else 0⟩

/-- The hash-table shape the `bigC9` parse maintains: position 0's trigram
in bucket 515, position 1's in bucket 768, and the all-zero trigram
positions in bucket 0. -/
def zTable (chain : List Nat) : HashTable :=
  [(515, [0]), (768, [1]), (0, chain)]

/-- The steady parse state on `bigC9`: one 18-byte match per iteration,
position `b + 24`, bucket 0 holding the 16 most recent insertions. -/
def steadyS (b : Nat) : Nat × HashTable :=
  (b + 24, zTable [b+7, b+8, b+9, b+10, b+11, b+12, b+13, b+14, b+15, b+16,
    b+17, b+18, b+19, b+20, b+21, b+22])

/-- The `bigC9` parse state upon reaching position 65536. -/
def s65536 : Nat × HashTable :=
  (65536, [(515, [0]), (768, [1]),
    (0, [65518, 65519, 65520, 65521, 65522, 65523, 65524, 65525, 65526,
      65527, 65528, 65529, 65530, 65531, 65532, 65533]), (1, [65534])])

/-- The invariant each emitted token satisfies: a literal, or a match of
length 3–18 whose distance is 1–4096 — the distance part only when the
input fits in 65536 bytes, below the `uint16_t` wrap of the stored
distance. -/
def tokenOK (sz : Nat) (m : LZ77Match) : Prop :=
  m.length = 0 ∨ (3 ≤ m.length ∧ m.length ≤ 18 ∧
    (sz ≤ 65536 → 1 ≤ m.distance ∧ m.distance ≤ 4096))

/-- `LZ77Algorithm::encode_matches`: `"LZ77"`, `count_be32`, then
`0x00 byte` per literal and `0x01 distance_be16 length next` per match. -/
def encode_matches (ms : List LZ77Match) : List Nat :=
  [76, 90, 55, 55] ++ be32 (ms.length % 2 ^ 32) ++
    ms.flatMap (fun m =>
      if m.is_literal then [0, m.next_char]
      else [1, (m.distance >>> 8) &&& 255, m.distance &&& 255, m.length, m.next_char])

/-- `LZ77Algorithm::compress` (minus timing/stats, which do not affect the
returned bytes). -/
def lz77_compress (input : ByteVec) : Except String (List Nat) :=
  if input.size = 0 then .error emptyInputMsg
  else .ok (encode_matches (lz77_tokens input))

/-- `LZ77Algorithm::compress` applied to a concrete byte list. -/
def lz77_compressL (l : List Nat) : Except String (List Nat) :=
  lz77_compress (ByteVec.ofList l)

/-- The token-reading loop of `LZ77Algorithm::decode_matches`: `offset` is
the index of the next marker byte, the second argument the number of tokens
still to read. -/
def decodeTokens (enc : List Nat) : Nat → Nat → List LZ77Match →
    Except String (List LZ77Match)
  | _, 0, acc => .ok acc.reverse
  | offset, cnt + 1, acc =>
    if offset ≥ enc.length then .error "Unexpected end of LZ77 data"
    else
      let marker := enc.getD offset 0
      if marker = 0 then
        if offset + 1 ≥ enc.length then .error "Incomplete literal in LZ77 data"
        else decodeTokens enc (offset + 2) cnt (⟨0, 0, enc.getD (offset + 1) 0⟩ :: acc)
      else if marker = 1 then
        if offset + 4 ≥ enc.length then .error "Incomplete match in LZ77 data"
        else
          let d := ((enc.getD (offset + 1) 0) <<< 8) ||| enc.getD (offset + 2) 0
          let l := enc.getD (offset + 3) 0
          let c := enc.getD (offset + 4) 0
          decodeTokens enc (offset + 5) cnt (⟨d, l, c⟩ :: acc)
      else .error "Invalid LZ77 marker"

/-- `LZ77Algorithm::decode_matches`. -/
def decode_matches (enc : List Nat) : Except String (List LZ77Match) :=
  if enc.length < 8 then .error "Invalid LZ77 header"
  else if enc.getD 0 0 = 76 ∧ enc.getD 1 0 = 90 ∧ enc.getD 2 0 = 55 ∧
      enc.getD 3 0 = 55 then
    let cnt := ((enc.getD 4 0) <<< 24) ||| ((enc.getD 5 0) <<< 16) |||
      ((enc.getD 6 0) <<< 8) ||| enc.getD 7 0
    decodeTokens enc 8 cnt []
  else .error "Invalid LZ77 signature"

/-- The back-reference copy loop of `LZ77Algorithm::decompress` (lines
112–119): `sp` is `start_pos` (a `size_t`, so already reduced mod `2^64`
by the caller), `i` the loop counter, and the bound re-reads the *current*
output length exactly as the C++ condition
`start_pos + i >= decompressed.size()` does. -/
def copyLoop (sp : Nat) : Nat → Nat → List Nat → Except String (List Nat)
  | _, 0, out => .ok out
  | i, rem + 1, out =>
    if sp + i ≥ out.length then .error "Invalid LZ77 match distance"
    else copyLoop sp (i + 1) rem (out ++ [out.getD (sp + i) 0])

/-- The token-expansion loop of `LZ77Algorithm::decompress` (lines 107–125).
`msNonempty` records `!matches.empty()` for the full decoded token list,
which is what the C++ condition `match.next_char != 0 || !matches.empty()`
consults. -/
def lz77Reconstruct (msNonempty : Bool) :
    List LZ77Match → List Nat → Except String (List Nat)
  | [], out => .ok out
  | m :: rest, out =>
    if m.is_literal then lz77Reconstruct msNonempty rest (out ++ [m.next_char])
    else
      let sp := (out.length + 2 ^ 64 - m.distance) % 2 ^ 64
      match copyLoop sp 0 m.length out with
      | .error e => .error e
      | .ok out2 =>
        let out3 := if m.next_char ≠ 0 ∨ msNonempty then out2 ++ [m.next_char] else out2
        lz77Reconstruct msNonempty rest out3

/-- `LZ77Algorithm::decompress` (minus timing/stats); exceptions become the
error result with the `"Decompression failed: "` prefix. -/
def lz77_decompress (input : List Nat) : Except String (List Nat) :=
  if input.isEmpty then .error emptyInputMsg
  else
    match decode_matches input with
    | .error e => .error ("Decompression failed: " ++ e)
    | .ok ms =>
      match lz77Reconstruct (!ms.isEmpty) ms [] with
      | .error e => .error ("Decompression failed: " ++ e)
      | .ok out => .ok out

/-! ## RLE codec (`src/algorithms/rle/rle_algorithm.cpp`) -/

/-- Length of the leading run of byte `v` in a list (the inner
`while (input[i + run_length] == current_byte)` count, uncapped; callers
apply the cap). -/
def countRun (v : Nat) : List Nat → Nat
  | [] => 0
  | b :: rest => if b = v then countRun v rest + 1 else 0

/-- `RLEAlgorithm::encode_rle` (simple framing): runs are capped at 255;
runs of ≥ 3 become `0xFF len value`, shorter runs are emitted literally
with `0xFF` escaped as `0xFF 0x00`. -/
def encode_rle (l : List Nat) : List Nat :=
  match l with
  | [] => []
  | b :: rest =>
    let run := min (1 + countRun b rest) 255
    let enc :=
      if run ≥ 3 then [255, run, b]
      else (List.replicate run (if b = 255 then [255, 0] else [b])).flatten
    enc ++ encode_rle (rest.drop (run - 1))
termination_by l.length
decreasing_by
  simp only [List.length_cons, List.length_drop]
  omega

/-- `RLEAlgorithm::decode_rle`.  A trailing lone `0xFF` falls through to the
literal branch (the C++ guard is `input[i] == 0xFF && i + 1 < size`). -/
def decode_rle (l : List Nat) : Except String (List Nat) :=
  match l with
  | [] => .ok []
  | 255 :: 0 :: rest => (decode_rle rest).map (fun out => 255 :: out)
  | 255 :: runLen :: value :: rest =>
    (decode_rle rest).map (fun out => List.replicate runLen value ++ out)
  | [255, _] => .error "Corrupted RLE data: incomplete sequence"
  | b :: rest => (decode_rle rest).map (fun out => b :: out)

/-- The literal-lookahead scan inside `encode_enhanced_rle` (lines 214–230):
greedily absorb bytes while no run of length ≥ 4 is about to start and the
literal length (checked *before* each absorption) is below 127. -/
def literalScan (litLen : Nat) (l : List Nat) : Nat :=
  match l with
  | [] => litLen
  | b :: rest =>
    if litLen < 127 then
      let nextRun := min (1 + countRun b rest) 4
      if nextRun ≥ 4 then litLen
      else literalScan (litLen + nextRun) (rest.drop (nextRun - 1))
    else litLen
termination_by l.length
decreasing_by
  simp only [List.length_cons, List.length_drop]
  omega

/-- The control-group loop of `RLEAlgorithm::encode_enhanced_rle`.  Each
iteration consumes at least one input byte, so `l.length` fuel always
suffices (the only zero-fuel escape is unreachable). -/
def encodeEnhancedLoop : Nat → List Nat → List Nat
  | _, [] => []
  | 0, _ => []
  | fuel + 1, b :: rest =>
    let run := min (1 + countRun b rest) 127
    if run ≥ 4 then
      (128 ||| run) :: b :: encodeEnhancedLoop fuel (rest.drop (run - 1))
    else
      let litLen := literalScan 0 (b :: rest)
      (litLen :: (b :: rest).take litLen) ++
        encodeEnhancedLoop fuel ((b :: rest).drop litLen)

/-- `RLEAlgorithm::encode_enhanced_rle`: the `0xE1` magic then control
groups. -/
def encode_enhanced_rle (l : List Nat) : List Nat :=
  225 :: encodeEnhancedLoop l.length l

/-- The group loop of `RLEAlgorithm::decode_enhanced_rle`, starting after
the magic byte. -/
def decodeEnhancedLoop (l : List Nat) : Except String (List Nat) :=
  match l with
  | [] => .ok []
  | control :: rest =>
    if control &&& 128 ≠ 0 then
      match rest with
      | [] => .error "Corrupted enhanced RLE data: missing byte value"
      | v :: rest2 =>
        (decodeEnhancedLoop rest2).map
          (fun out => List.replicate (control &&& 127) v ++ out)
    else
      if rest.length < control then
        .error "Corrupted enhanced RLE data: incomplete literal sequence"
      else
        (decodeEnhancedLoop (rest.drop control)).map
          (fun out => rest.take control ++ out)
termination_by l.length
decreasing_by
  all_goals simp only [List.length_cons, List.length_drop]
  all_goals omega

/-- `RLEAlgorithm::decode_enhanced_rle`. -/
def decode_enhanced_rle (l : List Nat) : Except String (List Nat) :=
  match l with
  | [] => .error "Invalid enhanced RLE header"
  | b :: rest =>
    if b = 225 then decodeEnhancedLoop rest
    else .error "Invalid enhanced RLE header"

/-- `RLEAlgorithm::compress` (minus timing/stats).  The framing choice
`calculate_entropy(input) < 0.5` is a floating-point test that a shallow
integer embedding cannot reproduce; it is abstracted as the Boolean
`lowEntropy` and every theorem quantifies over both outcomes. -/
def rle_compress (lowEntropy : Bool) (l : List Nat) : Except String (List Nat) :=
  if l.isEmpty then .error emptyInputMsg
  else .ok (if lowEntropy then encode_enhanced_rle l else encode_rle l)

/-- `RLEAlgorithm::decompress` (minus timing/stats). -/
def rle_decompress (l : List Nat) : Except String (List Nat) :=
  if l.isEmpty then .error emptyInputMsg
  else
    let r := if l.length > 1 ∧ l.getD 0 0 = 225 then decode_enhanced_rle l
             else decode_rle l
    match r with
    | .error e => .error ("Decompression failed: " ++ e)
    | .ok out => .ok out

/-! ## Huffman codec (`src/algorithms/huffman/huffman_algorithm.{hpp,cpp}`) -/

/-- Big-endian 32-bit read used by the decoders
(`(in[o] << 24) | (in[o+1] << 16) | (in[o+2] << 8) | in[o+3]`). -/
def readBe32 (l : List Nat) (o : Nat) : Nat :=
  ((l.getD o 0) <<< 24) ||| ((l.getD (o + 1) 0) <<< 16) |||
    ((l.getD (o + 2) 0) <<< 8) ||| l.getD (o + 3) 0

/-- `HuffmanNode`, minus the `frequency` field, which is carried separately
during construction and never persisted; a node always owns two children. -/
inductive HTree where
  | leaf (byte : Nat)
  | node (left right : HTree)
deriving DecidableEq, Repr

/-- Increment the count of byte `k` in the frequency table.  The C++
`std::unordered_map` iterates in an unspecified order; the embedding fixes
first-occurrence order, and every order-sensitive theorem quantifies over
arbitrary tables instead of using `freqList`. -/
def bump (k : Nat) : List (Nat × Nat) → List (Nat × Nat)
  | [] => [(k, 1)]
  | e :: rest => if e.1 = k then (k, e.2 + 1) :: rest else e :: bump k rest

/-- The byte-frequency table of an input (`frequencies[byte]++`). -/
def freqList (l : List Nat) : List (Nat × Nat) :=
  l.foldl (fun acc b => bump b acc) []

/-- Leaf-before-internal rank used by `NodeComparator`'s tie-break. -/
def isLeafRank : HTree → Nat
  | .leaf _ => 0
  | .node _ _ => 1

/-- `NodeComparator` as a priority: `a` is popped no later than `b` when its
frequency is smaller, or equal with `a` a leaf and `b` internal. -/
def pqLe (a b : Nat × HTree) : Bool :=
  a.1 < b.1 || (a.1 == b.1 && isLeafRank a.2 ≤ isLeafRank b.2)

/-- Ordered insertion into the priority queue, keeping earlier-inserted
items ahead of equal-priority newcomers (one refinement of the C++ heap's
unspecified order among ties). -/
def pqInsert (x : Nat × HTree) : List (Nat × HTree) → List (Nat × HTree)
  | [] => [x]
  | y :: rest => if pqLe y x then y :: pqInsert x rest else x :: y :: rest

/-- The merge loop of `HuffmanAlgorithm::build_tree`: pop the two smallest
(first pop becomes the *right* child, second the *left*), push their parent
with summed frequency, until one tree remains.  Each iteration shortens the
queue by one, so `pq.length` fuel suffices; an empty queue never occurs in
the embedded call sites. -/
def buildLoop : Nat → List (Nat × HTree) → HTree
  | _, [] => .leaf 0
  | _, [t] => t.2
  | 0, t :: _ => t.2
  | fuel + 1, a :: b :: rest =>
    buildLoop fuel (pqInsert (a.1 + b.1, .node b.2 a.2) rest)

/-- `HuffmanAlgorithm::build_tree` from a frequency table. -/
def build_tree (freqs : List (Nat × Nat)) : HTree :=
  let pq := freqs.foldl (fun acc e => pqInsert (e.2, .leaf e.1) acc) []
  buildLoop pq.length pq

/-- `HuffmanAlgorithm::generate_codes_recursive`: left appends bit 0, right
appends bit 1; `code` lives in a `uint32_t` and `depth` in a `uint8_t`. -/
def generate_codes_rec : HTree → Nat → Nat → List (Nat × Nat × Nat)
  | .leaf b, code, depth => [(b, code, depth)]
  | .node l r, code, depth =>
    generate_codes_rec l ((code <<< 1) % 2 ^ 32) ((depth + 1) % 256) ++
      generate_codes_rec r (((code <<< 1) ||| 1) % 2 ^ 32) ((depth + 1) % 256)

/-- `HuffmanAlgorithm::generate_codes`: a lone leaf gets the 1-bit code 0. -/
def generate_codes (root : HTree) : List (Nat × Nat × Nat) :=
  match root with
  | .leaf b => [(b, 0, 1)]
  | t => generate_codes_rec t 0 0

/-- `codes[byte]`: first matching entry, defaulting to the
default-constructed `HuffmanCode` `(0, 0)`. -/
def lookupCode (codes : List (Nat × Nat × Nat)) (b : Nat) : Nat × Nat :=
  match codes.find? (fun e => e.1 == b) with
  | some e => e.2
  | none => (0, 0)

/-- `HuffmanAlgorithm::serialize_tree`: pre-order, `0x01 value` per leaf,
`0x00` per internal node. -/
def serialize_tree : HTree → List Nat
  | .leaf b => [1, b]
  | .node l r => 0 :: (serialize_tree l ++ serialize_tree r)

/-- Number of leaves of a tree (each distinct input byte contributes one). -/
def leafCount : HTree → Nat
  | .leaf _ => 1
  | .node l r => leafCount l + leafCount r

/-- Total leaf count across the priority queue. -/
def sumLC (pq : List (Nat × HTree)) : Nat :=
  (pq.map (fun e => leafCount e.2)).sum

/-- `BitWriter` state: the bytes flushed so far plus the partial byte. -/
structure BitWriterState where
  output : List Nat
  current_byte : Nat
  bits_used : Nat
deriving Repr

/-- `BitWriter::write_bits`, MSB-first.  The C++ loop always makes progress
because `bits_used_ < 8` between iterations; the zero-progress escape is
unreachable. -/
def write_bits (st : BitWriterState) (value : Nat) (count : Nat) :
    BitWriterState :=
  if _hc : count = 0 then st
  else
    let bitsToWrite := min count (8 - st.bits_used)
    let shift := count - bitsToWrite
    let bits := (value >>> shift) &&& ((1 <<< bitsToWrite) - 1)
    let cb := (st.current_byte ||| (bits <<< (8 - st.bits_used - bitsToWrite))) % 256
    let bu := st.bits_used + bitsToWrite
    let st' : BitWriterState :=
      if bu = 8 then ⟨st.output ++ [cb], 0, 0⟩ else ⟨st.output, cb, bu⟩
    if _hb : bitsToWrite = 0 then st
    else write_bits st' value (count - bitsToWrite)
termination_by count
decreasing_by omega

/-- `BitWriter::flush`. -/
def bwFlush (st : BitWriterState) : List Nat :=
  if st.bits_used > 0 then st.output ++ [st.current_byte] else st.output

/-- `HuffmanAlgorithm::compress` (minus timing/stats). -/
def huffman_compress (input : List Nat) : Except String (List Nat) :=
  if input.isEmpty then .error emptyInputMsg
  else
    let freqs := freqList input
    if freqs.length = 1 then
      .ok ([1, (freqs.headD (0, 0)).1] ++ be32 input.length)
    else
      let tree := build_tree freqs
      let codes := generate_codes tree
      let tree_data := serialize_tree tree
      let body := bwFlush (input.foldl (fun st b =>
        let c := lookupCode codes b
        write_bits st c.1 c.2) ⟨[], 0, 0⟩)
      .ok ([2, (tree_data.length >>> 8) &&& 255, tree_data.length &&& 255] ++
        tree_data ++ be32 input.length ++ body)

/-- `HuffmanAlgorithm::deserialize_tree`, fuel-bounded: each level advances
the offset, so `data.length + 1` fuel always suffices. -/
def deserializeTreeF : Nat → List Nat → Nat → Except String (HTree × Nat)
  | 0, _, _ => .error "Corrupted tree data"
  | fuel + 1, data, offset =>
    if offset ≥ data.length then .error "Corrupted tree data"
    else
      let marker := data.getD offset 0
      if marker = 1 then
        if offset + 1 ≥ data.length then .error "Corrupted leaf node data"
        else .ok (.leaf (data.getD (offset + 1) 0), offset + 2)
      else
        match deserializeTreeF fuel data (offset + 1) with
        | .error e => .error e
        | .ok (l, o1) =>
          match deserializeTreeF fuel data o1 with
          | .error e => .error e
          | .ok (r, o2) => .ok (.node l r, o2)

/-- `BitReader` state over a fixed byte buffer. -/
structure BitReaderState where
  position : Nat
  current_byte : Nat
  bits_available : Nat
deriving Repr

/-- `BitReader::read_bits`, MSB-first, refilling from the buffer as needed.
As in `write_bits`, the zero-progress escape is unreachable. -/
def readBitsLoop (data : List Nat) (st : BitReaderState) (result count : Nat) :
    Except String (Nat × BitReaderState) :=
  if _hc : count = 0 then .ok (result, st)
  else
    let refill : Except String BitReaderState :=
      if st.bits_available = 0 then
        if st.position ≥ data.length then .error "Unexpected end of bit stream"
        else .ok ⟨st.position + 1, data.getD st.position 0, 8⟩
      else .ok st
    match refill with
    | .error e => .error e
    | .ok st2 =>
      let bitsToRead := min count st2.bits_available
      let shift := st2.bits_available - bitsToRead
      let bits := (st2.current_byte >>> shift) &&& ((1 <<< bitsToRead) - 1)
      let result2 := ((result <<< bitsToRead) ||| bits) % 2 ^ 32
      let st3 : BitReaderState :=
        ⟨st2.position, st2.current_byte &&& ((1 <<< shift) - 1),
          st2.bits_available - bitsToRead⟩
      if _hb : bitsToRead = 0 then .ok (result, st2)
      else readBitsLoop data st3 result2 (count - bitsToRead)
termination_by count
decreasing_by omega

/-- One symbol of the Huffman decode loop (lines 177–194): walk the tree
bit by bit; `has_more` is checked before each bit read.  A `node` always
has two children, so the C++ null-child check cannot fire in the embedded
tree type. -/
def walkTree (data : List Nat) : HTree → BitReaderState →
    Except String (Nat × BitReaderState)
  | .leaf b, st => .ok (b, st)
  | .node l r, st =>
    if st.position < data.length ∨ st.bits_available > 0 then
      match readBitsLoop data st 0 1 with
      | .error e => .error e
      | .ok (bit, st2) =>
        if bit ≠ 0 then walkTree data r st2 else walkTree data l st2
    else .error "Unexpected end of compressed data"

/-- The `for (i < original_size)` symbol loop of Huffman decompression. -/
def decodeSymbols (data : List Nat) (tree : HTree) :
    Nat → BitReaderState → List Nat → Except String (List Nat)
  | 0, _, acc => .ok acc.reverse
  | n + 1, st, acc =>
    match walkTree data tree st with
    | .error e => .error e
    | .ok (b, st2) => decodeSymbols data tree n st2 (b :: acc)

/-- `HuffmanAlgorithm::decompress` (minus timing/stats). -/
def huffman_decompress (input : List Nat) : Except String (List Nat) :=
  if input.isEmpty then .error emptyInputMsg
  else
    let r : Except String (List Nat) :=
      if input.getD 0 0 = 1 then
        if input.length < 6 then .error "Invalid single-byte Huffman data"
        else .ok (List.replicate (readBe32 input 2) (input.getD 1 0))
      else if input.getD 0 0 = 2 then
        if input.length < 7 then .error "Invalid Huffman data header"
        else
          let tree_size := ((input.getD 1 0) <<< 8) ||| input.getD 2 0
          if 3 + tree_size + 4 > input.length then .error "Invalid tree size"
          else
            match deserializeTreeF (input.length + 1) input 3 with
            | .error e => .error e
            | .ok (tree, offset) =>
              let original_size := readBe32 input offset
              let cdata := input.drop (offset + 4)
              decodeSymbols cdata tree original_size ⟨0, 0, 0⟩ []
      else .error "Unknown Huffman format"
    match r with
    | .error e => .error ("Decompression failed: " ++ e)
    | .ok out => .ok out

/-! ## Hybrid codec (`src/algorithms/custom_hybrid/hybrid_algorithm.{hpp,cpp}`) -/

/-- `BlockType`. -/
inductive BlockType where
  | LOW_ENTROPY
  | HIGH_REPETITION
  | RANDOM
  | MIXED
deriving DecidableEq, Repr

/-- The `static_cast<uint8_t>(block_info.type)` tag written per block. -/
def BlockType.code : BlockType → Nat
  | .LOW_ENTROPY => 0
  | .HIGH_REPETITION => 1
  | .RANDOM => 2
  | .MIXED => 3

def MIN_BLOCK_SIZE : Nat := 4096
def MAX_BLOCK_SIZE : Nat := 65536

/-- `HybridAlgorithm::get_optimal_block_size`. -/
def get_optimal_block_size (input_size : Nat) : Nat :=
  if input_size < 16384 then max MIN_BLOCK_SIZE (input_size / 4)
  else if input_size < 1048576 then 16384
  else min MAX_BLOCK_SIZE (input_size / 64)

/-- The differencing loop of `HybridAlgorithm::apply_preprocessing`:
`(x[i] - x[i-1]) & 0xFF` for each subsequent byte. -/
def diffBytes (prev : Nat) : List Nat → List Nat
  | [] => []
  | x :: rest => ((x + 256 * (prev / 256 + 1)) - prev) % 256 :: diffBytes x rest

/-- `HybridAlgorithm::apply_preprocessing`: first byte unchanged, then byte
differences mod 256; inputs shorter than 2 bytes are returned unchanged. -/
def apply_preprocessing (input : List Nat) : List Nat :=
  if input.length < 2 then input
  else
    match input with
    | [] => []
    | b :: rest => b :: diffBytes b rest

/-- `HybridAlgorithm::apply_postprocessing` (the identity). -/
def apply_postprocessing (compressed : List Nat) : List Nat := compressed

/-- The block-partition loop of `HybridAlgorithm::analyze_input`
(lines 243–254): `(type, start_offset, size)` per block.  The block type
comes from `classify_block`, whose entropy/repetition thresholds are
floating-point tests; it is abstracted as the `classify` parameter and the
block-structure theorems hold for every classifier.  Each iteration
advances `offset` by `bs ≥ 1`, so `input.length + 1` fuel suffices. -/
def analyzeLoop (classify : List Nat → BlockType) (input : List Nat)
    (bs : Nat) : Nat → Nat → List (BlockType × Nat × Nat)
  | 0, _ => []
  | fuel + 1, offset =>
    if offset < input.length then
      let curSize := min bs (input.length - offset)
      let block := (input.drop offset).take curSize
      (classify block, offset, curSize) ::
        analyzeLoop classify input bs fuel (offset + bs)
    else []

/-- `HybridAlgorithm::analyze_input`. -/
def analyze_input (classify : List Nat → BlockType) (input : List Nat)
    (bs : Nat) : List (BlockType × Nat × Nat) :=
  analyzeLoop classify input bs (input.length + 1) 0

/-- Success flag of a result (`CompressionResult::is_success`). -/
def resOk (r : Except String (List Nat)) : Bool :=
  match r with
  | .ok _ => true
  | .error _ => false

/-- `stats().compressed_size` of a result: the data size on success, and the
default-constructed 0 on failure. -/
def resSize (r : Except String (List Nat)) : Nat :=
  match r with
  | .ok d => d.length
  | .error _ => 0

/-- `HybridAlgorithm::compress_block`: dispatch on the block type, with the
`MIXED` tournament (lines 342–360) comparing `compressed_size` fields, and
the verbatim fallback on failure.  `lowE` abstracts the floating-point
entropy test inside the RLE codec's framing choice. -/
def compress_block (lowE : Bool) (block : List Nat) (type : BlockType) :
    List Nat :=
  let result : Except String (List Nat) :=
    match type with
    | .LOW_ENTROPY => rle_compress lowE block
    | .HIGH_REPETITION => lz77_compressL block
    | .RANDOM => huffman_compress block
    | .MIXED =>
      let rleR := rle_compress lowE block
      let lz77R := lz77_compressL block
      let huffmanR := huffman_compress block
      if resOk rleR ∧ resSize rleR ≤ resSize lz77R ∧
          resSize rleR ≤ resSize huffmanR then rleR
      else if resOk lz77R ∧ resSize lz77R ≤ resSize huffmanR then lz77R
      else huffmanR
  match result with
  | .error _ => block
  | .ok d => d

/-- `HybridAlgorithm::decompress_block`, dispatching on the raw tag byte:
0 → RLE, 1 → LZ77, 2 and 3 → Huffman (both `RANDOM` and `MIXED` take the
Huffman arm of the switch); any other tag leaves the initial failure
result, whose message is empty. -/
def decompress_block (block : List Nat) (tag : Nat) :
    Except String (List Nat) :=
  if tag = 0 then rle_decompress block
  else if tag = 1 then lz77_decompress block
  else if tag = 2 ∨ tag = 3 then huffman_decompress block
  else .error ""

/-- `HybridAlgorithm::compress` (minus timing/stats): the `HYBR` magic,
`block_count_be32`, then per block the tag, sizes and payload. -/
def hybrid_compress (classify : List Nat → BlockType)
    (lowEntropyOf : List Nat → Bool) (input : List Nat) :
    Except String (List Nat) :=
  if input.isEmpty then .error emptyInputMsg
  else
    let block_size := get_optimal_block_size input.length
    let preprocessed := apply_preprocessing input
    let blocks := analyze_input classify preprocessed block_size
    let payload := blocks.flatMap (fun bi =>
      let block_data := (preprocessed.drop bi.2.1).take bi.2.2
      let cb := compress_block (lowEntropyOf block_data) block_data bi.1
      bi.1.code :: (be32 (bi.2.2 % 2 ^ 32) ++ be32 (cb.length % 2 ^ 32) ++ cb))
    .ok (apply_postprocessing
      ([72, 89, 66, 82] ++ be32 (blocks.length % 2 ^ 32) ++ payload))

/-- The per-block loop of `HybridAlgorithm::decompress` (lines 147–183). -/
def hybridBlocksLoop (input : List Nat) :
    Nat → Nat → List Nat → Except String (List Nat)
  | _, 0, out => .ok out
  | offset, cnt + 1, out =>
    if offset + 9 > input.length then .error "Incomplete block header"
    else
      let tag := input.getD offset 0
      let original_size := readBe32 input (offset + 1)
      let compressed_size := readBe32 input (offset + 5)
      if offset + 9 + compressed_size > input.length then
        .error "Incomplete block data"
      else
        let cb := (input.drop (offset + 9)).take compressed_size
        match decompress_block cb tag with
        | .error e => .error ("Failed to decompress block: " ++ e)
        | .ok db =>
          if db.length ≠ original_size then
            .error "Block size mismatch after decompression"
          else hybridBlocksLoop input (offset + 9 + compressed_size) cnt (out ++ db)

/-- `HybridAlgorithm::decompress` (minus timing/stats).  Note that the C++
never reverses `apply_preprocessing`: the concatenated blocks are returned
as-is. -/
def hybrid_decompress (input : List Nat) : Except String (List Nat) :=
  if input.isEmpty then .error emptyInputMsg
  else
    let r : Except String (List Nat) :=
      if input.length < 8 ∨ ¬(input.getD 0 0 = 72 ∧ input.getD 1 0 = 89 ∧
          input.getD 2 0 = 66 ∧ input.getD 3 0 = 82) then
        .error "Invalid hybrid compression signature"
      else hybridBlocksLoop input 8 (readBe32 input 4) []
    match r with
    | .error e => .error ("Decompression failed: " ++ e)
    | .ok out => .ok out

/-! ## Registry (`src/core/algorithm.cpp`) -/

/-- The codecs the factory can construct. -/
inductive CodecKind where
  | rle
  | huffman
  | lz77
deriving DecidableEq, Repr

/-- `AlgorithmFactory::create`: the process-wide `algorithm_registry` map
holds exactly the keys `"rle"`, `"huffman"` and `"lz77"` (lines 12–16);
lookup failure returns the null pointer, modelled as `none`. -/
def AlgorithmFactory_create (name : String) : Option CodecKind :=
  if name = "rle" then some .rle
  else if name = "huffman" then some .huffman
  else if name = "lz77" then some .lz77
  else none

/-- `AlgorithmFactory::is_available`. -/
def AlgorithmFactory_is_available (name : String) : Bool :=
  (AlgorithmFactory_create name).isSome

/-! ## Theorems -/

/-- C3: every codec rejects the empty byte sequence on both legs with the
`EmptyInput` failure (`"Input data is empty"`), for every abstracted
classifier/entropy outcome; none returns success. -/
theorem empty_input_rejected :
    (∀ lowE, rle_compress lowE [] = .error emptyInputMsg) ∧
    rle_decompress [] = .error emptyInputMsg ∧
    huffman_compress [] = .error emptyInputMsg ∧
    huffman_decompress [] = .error emptyInputMsg ∧
    lz77_compressL [] = .error emptyInputMsg ∧
    lz77_decompress [] = .error emptyInputMsg ∧
    (∀ classify lowEOf,
      hybrid_compress classify lowEOf [] = .error emptyInputMsg) ∧
    hybrid_decompress [] = .error emptyInputMsg :=
  ⟨fun lowE => by cases lowE <;> rfl, rfl, rfl, rfl, rfl, rfl,
    fun _ _ => rfl, rfl⟩

/-- C2: the factory registry resolves `"rle"`, `"huffman"` and `"lz77"`,
but — contrary to the spec and to the CLI help text that advertises it —
contains no `"hybrid"` entry, so `create("hybrid")` returns the null
pointer; unknown names also return null. -/
theorem registry_contents :
    AlgorithmFactory_create "rle" = some CodecKind.rle ∧
    AlgorithmFactory_create "huffman" = some CodecKind.huffman ∧
    AlgorithmFactory_create "lz77" = some CodecKind.lz77 ∧
    AlgorithmFactory_create "hybrid" = none ∧
    AlgorithmFactory_create "zstd" = none := by
  refine ⟨by decide, by decide, by decide, by decide, by decide⟩

/-- C1: the claimed universal round trip fails on the code: for the 6-byte
input `"abcabc"`, LZ77 parses three literals and a final match that ends
exactly at the end of input with `next_char = 0`, and the decoder
unconditionally re-appends that filler byte (its guard
`next_char != 0 || !matches.empty()` is always true), so the round trip
returns the input plus a spurious trailing `0x00`. -/
theorem lz77_roundtrip_appends_filler :
    (lz77_compressL [97, 98, 99, 97, 98, 99]).bind lz77_decompress =
      .ok [97, 98, 99, 97, 98, 99, 0] ∧
    (lz77_compressL [97, 98, 99, 97, 98, 99]).bind lz77_decompress ≠
      .ok [97, 98, 99, 97, 98, 99] := by
  refine ⟨by decide, by decide⟩

/-- C5 (counterexample): a back-reference token with `length = 1` — far
below the minimum match length 3 — is *not* rejected: the frame
`"LZ77", count=2, literal 'a', match (distance=1, length=1, next='B')`
decodes successfully to `aaB`. -/
theorem lz77_short_match_accepted :
    lz77_decompress [76, 90, 55, 55, 0, 0, 0, 2, 0, 97, 1, 0, 1, 1, 66] =
      .ok [97, 97, 66] := by
  decide

/-- C5 (amended): during expansion of a back-reference token with
`length ≥ 1`, `distance = 0` or `distance > out_len` fails with the
`CorruptStream` error `"Invalid LZ77 match distance"` (the `size_t`
underflow of `out_len - distance` makes `start_pos` wrap past the output
length); `length < 3` by itself is *not* rejected — a `length = 0` token is
treated as a literal and `length ∈ {1, 2}` tokens expand like any other. -/
theorem lz77_bad_distance_rejected (msNE : Bool) (rest : List LZ77Match)
    (out : List Nat) (d l c : Nat) (hl : 1 ≤ l) (hd : d ≤ 65535)
    (hout : out.length < 2 ^ 64) (hbad : d = 0 ∨ out.length < d) :
    lz77Reconstruct msNE (⟨d, l, c⟩ :: rest) out =
      .error "Invalid LZ77 match distance" := by
  have hlit : LZ77Match.is_literal ⟨d, l, c⟩ = false := by
    simp [LZ77Match.is_literal]; omega
  rw [lz77Reconstruct, hlit]
  simp only [Bool.false_eq_true, if_false]
  obtain ⟨k, rfl⟩ : ∃ k, l = k + 1 := ⟨l - 1, by omega⟩
  have hsp : (out.length + 2 ^ 64 - d) % 2 ^ 64 + 0 ≥ out.length := by omega
  rw [copyLoop, if_pos hsp]

/-- C5 (amended, witness): instantiation at `out = [7]`, `distance = 2`. -/
theorem lz77_bad_distance_rejected_witness :
    lz77Reconstruct true [(⟨2, 1, 5⟩ : LZ77Match)] [7] =
      .error "Invalid LZ77 match distance" :=
  lz77_bad_distance_rejected true [] [7] 2 1 5 (by decide) (by decide)
    (by decide) (by decide)

/-! ### LZ77 token bounds (claim C9) -/

theorem bigC9_get_zero (x : Nat) (h3 : 3 ≤ x) (hx : x < 65536) :
    bigC9.get x = 0 := by
  simp only [bigC9]
  rw [Nat.mod_eq_of_lt hx]
  simp [Nat.not_lt.mpr h3]

theorem matchLenFrom_le (input : ByteVec) (c p : Nat) :
    ∀ fuel k, matchLenFrom input c p k fuel ≤ k + fuel := by
  intro fuel
  induction fuel with
  | zero => intro k; simp [matchLenFrom]
  | succ n ih =>
    intro k
    rw [matchLenFrom]
    split
    · exact le_trans (ih (k + 1)) (by omega)
    · omega

theorem matchLenFrom_full (input : ByteVec) (c p : Nat) :
    ∀ fuel k, (∀ t, t < fuel → input.get (c + (k + t)) = input.get (p + (k + t))) →
      matchLenFrom input c p k fuel = k + fuel := by
  intro fuel
  induction fuel with
  | zero => intro k _; simp [matchLenFrom]
  | succ n ih =>
    intro k hk
    rw [matchLenFrom]
    rw [if_pos (by have := hk 0 (by omega); simpa using this)]
    have step : ∀ t, t < n → input.get (c + (k + 1 + t)) = input.get (p + (k + 1 + t)) := by
      intro t ht
      have h := hk (t + 1) (by omega)
      rw [show k + (t + 1) = k + 1 + t by omega] at h
      exact h
    rw [ih (k + 1) step]
    omega

theorem scanChain_absorb (input : ByteVec) (pos : Nat) :
    ∀ ch best, min LOOKAHEAD_SIZE (input.size - pos) ≤ best.2 →
      scanChain input pos ch best = best := by
  intro ch
  induction ch with
  | nil => intro best _; rfl
  | cons c rest ih =>
    intro best hbest
    rw [scanChain]
    by_cases h1 : c ≥ pos
    · rw [if_pos h1]; exact ih best hbest
    · simp only [if_neg h1]
      by_cases h2 : (pos - c) % 65536 > WINDOW_SIZE
      · simp only [if_pos h2]
      · simp only [if_neg h2]
        rw [if_neg (by
          have := matchLenFrom_le input c pos (min LOOKAHEAD_SIZE (input.size - pos)) 0
          omega)]
        exact ih best hbest

theorem htUpdate_zTable (chain : List Nat) (p : Nat) (h3 : 3 ≤ p)
    (hp : p + 2 < 65536) (hlen : chain.length = 16) :
    htUpdate bigC9 (zTable chain) p = zTable (chain.tail ++ [p]) := by
  have hne : chain ≠ [] := by intro h; rw [h] at hlen; simp at hlen
  unfold htUpdate
  rw [if_neg (by simp only [bigC9]; omega)]
  rw [bigC9_get_zero p h3 (by omega), bigC9_get_zero (p + 1) (by omega) (by omega),
    bigC9_get_zero (p + 2) (by omega) hp]
  have hash0 : hash3 0 0 0 = 0 := by decide
  have hget : htGet (zTable chain) 0 = chain := by simp [htGet, zTable]
  simp only [hash0, hget]
  have hlen2 : (chain ++ [p]).length > 16 := by simp [hlen]
  rw [if_pos hlen2, List.tail_append_of_ne_nil hne]
  simp [htSet, zTable]

theorem htUpdateRange_zTable (i : Nat) (h3 : 3 ≤ i) :
    ∀ n chain, i + n + 1 < 65536 → chain.length = 16 →
      htUpdateRange bigC9 (zTable chain) i n =
        zTable ((chain ++ (List.range n).map (i + ·)).drop n) := by
  intro n
  induction n with
  | zero => intro chain _ _; simp [htUpdateRange]
  | succ m ih =>
    intro chain hn hlen
    rw [htUpdateRange]
    rw [ih chain (by omega) hlen]
    rw [htUpdate_zTable _ (i + m) (by omega) (by omega)
      (by simp [List.length_drop, List.length_append, List.length_map,
        List.length_range, hlen])]
    congr 1
    rw [List.tail_drop]
    rw [← List.drop_append_of_le_length
      (by simp [List.length_append, List.length_map, List.length_range, hlen]; omega)]
    rw [List.append_assoc]
    congr 2
    rw [List.range_succ, List.map_append]
    rfl

theorem steady_find_match (b : Nat) (hb : b + 43 < 65536) :
    find_match (zTable [b+8, b+9, b+10, b+11, b+12, b+13, b+14, b+15, b+16,
      b+17, b+18, b+19, b+20, b+21, b+22, b+22]) bigC9 (b + 24) =
      ⟨2, 18, 0⟩ := by
  unfold find_match
  rw [if_neg (by simp only [bigC9, MIN_MATCH_LENGTH]; omega)]
  rw [bigC9_get_zero (b + 24) (by omega) (by omega),
    bigC9_get_zero (b + 24 + 1) (by omega) (by omega),
    bigC9_get_zero (b + 24 + 2) (by omega) (by omega)]
  have hash0 : hash3 0 0 0 = 0 := by decide
  have hget : ∀ ch, htGet (zTable ch) 0 = ch := fun ch => by simp [htGet, zTable]
  simp only [hash0, hget]
  have hrev : ([b+8, b+9, b+10, b+11, b+12, b+13, b+14, b+15, b+16,
      b+17, b+18, b+19, b+20, b+21, b+22, b+22] : List Nat).reverse =
      [b+22, b+22, b+21, b+20, b+19, b+18, b+17, b+16, b+15, b+14,
        b+13, b+12, b+11, b+10, b+9, b+8] := by
    simp
  rw [hrev]
  have hmax : min LOOKAHEAD_SIZE (bigC9.size - (b + 24)) = 18 := by
    simp only [bigC9, LOOKAHEAD_SIZE]; omega
  have hml : matchLenFrom bigC9 (b + 22) (b + 24) 0 (min LOOKAHEAD_SIZE (bigC9.size - (b + 24))) = 18 := by
    rw [hmax]
    have := matchLenFrom_full bigC9 (b + 22) (b + 24) 18 0 (by
      intro t ht
      rw [bigC9_get_zero (b + 22 + (0 + t)) (by omega) (by omega),
        bigC9_get_zero (b + 24 + (0 + t)) (by omega) (by omega)])
    simpa using this
  have hscan : scanChain bigC9 (b + 24)
      [b+22, b+22, b+21, b+20, b+19, b+18, b+17, b+16, b+15, b+14,
        b+13, b+12, b+11, b+10, b+9, b+8] (0, 0) = (2, 18) := by
    rw [scanChain]
    rw [if_neg (by omega)]
    simp only []
    rw [show b + 24 - (b + 22) = 2 by omega]
    rw [if_neg (by decide)]
    simp only [hml]
    rw [if_pos (by decide)]
    exact scanChain_absorb bigC9 (b + 24) _ (2, 18) (by rw [hmax])
  rw [hscan]
  rw [if_pos (by decide)]
  rw [if_pos (show b + 24 + 18 < bigC9.size by simp only [bigC9]; omega)]
  rw [bigC9_get_zero (b + 24 + 18) (by omega) (by omega)]

theorem steady_step (b : Nat) (hb : b + 43 < 65536) :
    nextState bigC9 (steadyS b) = steadyS (b + 19) := by
  have h1 : htUpdate bigC9 (steadyS b).2 ((steadyS b).1 - 2) =
      zTable [b+8, b+9, b+10, b+11, b+12, b+13, b+14, b+15, b+16,
        b+17, b+18, b+19, b+20, b+21, b+22, b+22] := by
    have heq : (steadyS b).1 - 2 = b + 22 := by simp [steadyS]
    have h2 : (steadyS b).2 = zTable [b+7, b+8, b+9, b+10, b+11, b+12, b+13,
      b+14, b+15, b+16, b+17, b+18, b+19, b+20, b+21, b+22] := rfl
    rw [heq, h2]
    rw [htUpdate_zTable _ (b + 22) (by omega) (by omega) (by simp)]
    simp [zTable]
  unfold nextState
  rw [if_pos (show (steadyS b).1 ≥ 2 by simp [steadyS])]
  rw [h1]
  have hpos : (steadyS b).1 = b + 24 := rfl
  rw [hpos]
  simp only [steady_find_match b hb]
  have hlit : (⟨2, 18, 0⟩ : LZ77Match).is_literal = false := by decide
  simp only [hlit, Bool.false_eq_true, if_false]
  rw [htUpdateRange_zTable (b + 24) (by omega) 18 _ (by omega) (by simp)]
  have hrange : List.range 18 = [0, 1, 2, 3, 4, 5, 6, 7, 8, 9, 10, 11, 12,
      13, 14, 15, 16, 17] := rfl
  rw [hrange]
  simp only [List.map, List.append_eq, List.cons_append, List.nil_append,
    List.drop, steadyS, zTable, Prod.mk.injEq, List.cons.injEq, and_true,
    List.nil_eq]

theorem steady_iter : ∀ k, k ≤ 3447 →
    (nextState bigC9)^[k] (steadyS 0) = steadyS (19 * k) := by
  intro k
  induction k with
  | zero => intro _; rfl
  | succ m ih =>
    intro hk
    rw [Function.iterate_succ_apply', ih (by omega),
      steady_step (19 * m) (by omega),
      show 19 * m + 19 = 19 * (m + 1) from by ring]

theorem lz77Parse_mem_acc (input : ByteVec) :
    ∀ fuel i tbl acc m, m ∈ acc → m ∈ lz77Parse input fuel i tbl acc := by
  intro fuel
  induction fuel with
  | zero =>
    intro i tbl acc m hm
    rw [lz77Parse]
    exact List.mem_reverse.mpr hm
  | succ n ih =>
    intro i tbl acc m hm
    rw [lz77Parse]
    by_cases hi : i < input.size
    · simp only [if_pos hi]
      by_cases hm2 : (find_match (if i ≥ 2 then htUpdate input tbl (i - 2) else tbl)
          input i).is_literal
      · simp only [hm2, if_true]
        exact ih _ _ _ m (List.mem_cons_of_mem _ hm)
      · simp only [hm2, Bool.false_eq_true, if_false]
        exact ih _ _ _ m (List.mem_cons_of_mem _ hm)
    · simp only [if_neg hi]
      exact List.mem_reverse.mpr hm

theorem lz77Parse_step (input : ByteVec) (fuel i : Nat) (tbl : HashTable)
    (acc : List LZ77Match) (h : i < input.size) :
    lz77Parse input (fuel + 1) i tbl acc =
      lz77Parse input fuel (nextState input (i, tbl)).1
        (nextState input (i, tbl)).2 (emitTok input (i, tbl) :: acc) := by
  rw [lz77Parse]
  rw [if_pos h]
  unfold nextState emitTok
  by_cases hm : (find_match (if i ≥ 2 then htUpdate input tbl (i - 2) else tbl)
      input i).is_literal
  · simp only [hm, if_true]
  · simp only [hm, Bool.false_eq_true, if_false]

theorem nextState_fst_lt (input : ByteVec) (s : Nat × HashTable) :
    s.1 < (nextState input s).1 := by
  unfold nextState
  by_cases hm : (find_match (if s.1 ≥ 2 then htUpdate input s.2 (s.1 - 2) else s.2)
      input s.1).is_literal
  · simp only [hm, if_true]; omega
  · simp only [hm, Bool.false_eq_true, if_false]; omega

theorem iterate_fst_le (input : ByteVec) (s : Nat × HashTable) :
    ∀ k, s.1 ≤ ((nextState input)^[k] s).1 := by
  intro k
  induction k with
  | zero => simp
  | succ m ih =>
    rw [Function.iterate_succ_apply']
    have := nextState_fst_lt input ((nextState input)^[m] s)
    omega

theorem reach_mem (input : ByteVec) :
    ∀ k fuel (s : Nat × HashTable) acc, k < fuel →
      ((nextState input)^[k] s).1 < input.size →
      emitTok input ((nextState input)^[k] s) ∈
        lz77Parse input fuel s.1 s.2 acc := by
  intro k
  induction k with
  | zero =>
    intro fuel s acc hf hlt
    obtain ⟨f, rfl⟩ : ∃ f, fuel = f + 1 := ⟨fuel - 1, by omega⟩
    simp only [Function.iterate_zero_apply] at hlt ⊢
    rw [lz77Parse_step input f s.1 s.2 acc hlt]
    simp only [Prod.mk.eta]
    exact lz77Parse_mem_acc input f _ _ _ _ (List.mem_cons_self _ _)
  | succ m ih =>
    intro fuel s acc hf hlt
    obtain ⟨f, rfl⟩ : ∃ f, fuel = f + 1 := ⟨fuel - 1, by omega⟩
    have hi : s.1 < input.size := by
      have h1 := nextState_fst_lt input s
      have h2 := iterate_fst_le input (nextState input s) m
      rw [Function.iterate_succ_apply] at hlt
      omega
    rw [lz77Parse_step input f s.1 s.2 acc hi]
    simp only [Prod.mk.eta]
    have h3 := ih f (nextState input s) (emitTok input (s.1, s.2) :: acc)
      (by omega) (by rw [← Function.iterate_succ_apply]; exact hlt)
    rw [Function.iterate_succ_apply] at hlt ⊢
    simpa using h3

theorem c9_start : (nextState bigC9)^[6] ((0 : Nat), emptyTable) = steadyS 0 := by
  decide

theorem c9_last : nextState bigC9 (steadyS 65493) = s65536 := by
  decide

theorem c9_emit : emitTok bigC9 s65536 = ⟨0, 3, 0⟩ := by
  decide

theorem c9_member : (⟨0, 3, 0⟩ : LZ77Match) ∈ lz77_tokens bigC9 := by
  have hstate : (nextState bigC9)^[3454] ((0 : Nat), emptyTable) = s65536 := by
    rw [show (3454 : Nat) = (1 + 3447) + 6 from by norm_num,
      Function.iterate_add_apply, c9_start, Function.iterate_add_apply,
      steady_iter 3447 (by omega), Function.iterate_one,
      show 19 * 3447 = 65493 from by norm_num, c9_last]
  have hlt : ((nextState bigC9)^[3454] ((0 : Nat), emptyTable)).1 < bigC9.size := by
    rw [hstate]; decide
  have hm := reach_mem bigC9 3454 (bigC9.size + 1) ((0 : Nat), emptyTable) []
    (by decide) hlt
  rw [hstate, c9_emit] at hm
  rw [lz77_tokens]
  exact hm

theorem scanChain_bounds (input : ByteVec) (pos : Nat) (hpos : pos < input.size) :
    ∀ ch best, best.2 ≤ 18 →
      (1 ≤ best.2 → input.size ≤ 65536 → 1 ≤ best.1 ∧ best.1 ≤ 4096) →
      (scanChain input pos ch best).2 ≤ 18 ∧
        (1 ≤ (scanChain input pos ch best).2 → input.size ≤ 65536 →
          1 ≤ (scanChain input pos ch best).1 ∧
            (scanChain input pos ch best).1 ≤ 4096) := by
  intro ch
  induction ch with
  | nil =>
    intro best h1 h2
    rw [scanChain]
    exact ⟨h1, h2⟩
  | cons c rest ih =>
    intro best h1 h2
    rw [scanChain]
    by_cases hc : c ≥ pos
    · rw [if_pos hc]; exact ih best h1 h2
    · simp only [if_neg hc]
      by_cases hd : (pos - c) % 65536 > WINDOW_SIZE
      · simp only [if_pos hd]
        exact ⟨h1, h2⟩
      · simp only [if_neg hd]
        by_cases hml : matchLenFrom input c pos 0
            (min LOOKAHEAD_SIZE (input.size - pos)) > best.2
        · simp only [if_pos hml]
          apply ih
          · have hle := matchLenFrom_le input c pos
              (min LOOKAHEAD_SIZE (input.size - pos)) 0
            have : min LOOKAHEAD_SIZE (input.size - pos) ≤ 18 :=
              le_trans (Nat.min_le_left _ _) (by simp [LOOKAHEAD_SIZE])
            omega
          · intro _ hsz
            have hlt : pos - c < 65536 := by omega
            rw [Nat.mod_eq_of_lt hlt]
            simp only [WINDOW_SIZE] at hd
            omega
        · simp only [if_neg hml]; exact ih best h1 h2

theorem find_match_bounds (tbl : HashTable) (input : ByteVec) (pos : Nat) :
    tokenOK input.size (find_match tbl input pos) := by
  unfold find_match
  by_cases hg : pos + MIN_MATCH_LENGTH > input.size
  · rw [if_pos hg]; left; rfl
  · rw [if_neg hg]
    simp only [MIN_MATCH_LENGTH] at hg
    have hpos : pos < input.size := by omega
    have hb := scanChain_bounds input pos hpos
      (htGet tbl (hash3 (input.get pos) (input.get (pos + 1))
        (input.get (pos + 2)))).reverse (0, 0) (by omega) (by omega)
    by_cases h3 : (scanChain input pos
        (htGet tbl (hash3 (input.get pos) (input.get (pos + 1))
          (input.get (pos + 2)))).reverse (0, 0)).2 ≥ MIN_MATCH_LENGTH
    · simp only [if_pos h3]
      right
      simp only [MIN_MATCH_LENGTH] at h3
      exact ⟨h3, hb.1, fun hsz => hb.2 (by omega) hsz⟩
    · simp only [if_neg h3]
      left
      rfl

theorem lz77Parse_bounds (input : ByteVec) :
    ∀ fuel i tbl acc, (∀ m ∈ acc, tokenOK input.size m) →
      ∀ m ∈ lz77Parse input fuel i tbl acc, tokenOK input.size m := by
  intro fuel
  induction fuel with
  | zero =>
    intro i tbl acc hacc m hm
    rw [lz77Parse] at hm
    exact hacc m (List.mem_reverse.mp hm)
  | succ n ih =>
    intro i tbl acc hacc m hm
    rw [lz77Parse] at hm
    by_cases hi : i < input.size
    · simp only [if_pos hi] at hm
      by_cases hm2 : (find_match (if i ≥ 2 then htUpdate input tbl (i - 2) else tbl)
          input i).is_literal
      · simp only [hm2, if_true] at hm
        refine ih _ _ _ ?_ m hm
        intro m' hm'
        rcases List.mem_cons.mp hm' with h | h
        · left; rw [h]
        · exact hacc m' h
      · simp only [hm2, Bool.false_eq_true, if_false] at hm
        refine ih _ _ _ ?_ m hm
        intro m' hm'
        rcases List.mem_cons.mp hm' with h | h
        · have := find_match_bounds
            (if i ≥ 2 then htUpdate input tbl (i - 2) else tbl) input i
          rcases this with h0 | hr
          · exfalso
            simp [LZ77Match.is_literal, h0] at hm2
          · right; rw [h]; exact hr
        · exact hacc m' h
    · simp only [if_neg hi] at hm
      exact hacc m (List.mem_reverse.mp hm)

/-- C9 (counterexample): on the 65539-byte input `bigC9`, LZ77 compression
emits the back-reference token `(distance = 0, length = 3)`: at position
65536 the only chain candidate is position 0, the true distance 65536 wraps
to 0 in the `uint16_t` field, and `0 > WINDOW_SIZE` fails to trigger the
window break.  The emitted distance lies outside `[1, 4096]` (its own
decoder rejects distance 0), refuting the claim as stated. -/
theorem lz77_wrapped_distance_counterexample :
    (⟨0, 3, 0⟩ : LZ77Match) ∈ lz77_tokens bigC9 ∧
    (⟨0, 3, 0⟩ : LZ77Match).is_literal = false ∧
    ¬ 1 ≤ (⟨0, 3, 0⟩ : LZ77Match).distance :=
  ⟨c9_member, by decide, by decide⟩

/-- C9 (amended): every back-reference token emitted by LZ77 compress has
`length ∈ [3, 18]` — the match search never exceeds the 18-byte lookahead,
although the frame's length byte could hold up to 255 — and, provided the
input is at most 65536 bytes (so the `uint16_t` distance cannot wrap),
`distance ∈ [1, 4096]`. -/
theorem lz77_match_token_bounds (input : ByteVec) (m : LZ77Match)
    (hm : m ∈ lz77_tokens input) (hlit : m.is_literal = false) :
    3 ≤ m.length ∧ m.length ≤ 18 ∧
      (input.size ≤ 65536 → 1 ≤ m.distance ∧ m.distance ≤ 4096) := by
  have := lz77Parse_bounds input (input.size + 1) 0 emptyTable []
    (by intro m2 hm2; cases hm2) m hm
  rcases this with h0 | hr
  · exfalso; simp [LZ77Match.is_literal, h0] at hlit
  · exact hr

/-- C9 (amended, witness): the match token `(3, 3, 0)` of the 6-byte input
`"abcabc"` satisfies the bounds. -/
theorem lz77_match_token_bounds_witness :
    3 ≤ (⟨3, 3, 0⟩ : LZ77Match).length ∧ (⟨3, 3, 0⟩ : LZ77Match).length ≤ 18 ∧
      ((ByteVec.ofList [97, 98, 99, 97, 98, 99]).size ≤ 65536 →
        1 ≤ (⟨3, 3, 0⟩ : LZ77Match).distance ∧
          (⟨3, 3, 0⟩ : LZ77Match).distance ≤ 4096) :=
  lz77_match_token_bounds (ByteVec.ofList [97, 98, 99, 97, 98, 99])
    ⟨3, 3, 0⟩ (by decide) (by decide)

/-! ### RLE and Huffman replicate characterizations (claims C6, C7) -/

theorem countRun_replicate (b m : Nat) : countRun b (List.replicate m b) = m := by
  induction m with
  | zero => rfl
  | succ k ih => simp [List.replicate_succ, countRun, ih]

theorem flatten_replicate_singleton (n : Nat) (x : Nat) :
    (List.replicate n [x]).flatten = List.replicate n x := by
  induction n with
  | zero => rfl
  | succ k ih => simp [List.replicate_succ, ih]

theorem encode_rle_replicate (b n : Nat) (hb : b ≠ 255) (hn : 1 ≤ n) :
    encode_rle (List.replicate n b) =
      if n < 3 then List.replicate n b
      else if n ≤ 255 then [255, n, b]
      else [255, 255, b] ++ encode_rle (List.replicate (n - 255) b) := by
  obtain ⟨k, rfl⟩ : ∃ k, n = k + 1 := ⟨n - 1, by omega⟩
  rw [List.replicate_succ, encode_rle, countRun_replicate]
  by_cases hA : k + 1 < 3
  · rw [if_pos hA]
    rw [show min (1 + k) 255 = k + 1 by omega]
    rw [if_neg (by omega)]
    rw [if_neg hb]
    rw [flatten_replicate_singleton]
    rw [List.drop_replicate]
    simp [encode_rle, List.replicate_succ]
  · rw [if_neg hA]
    by_cases hB : k + 1 ≤ 255
    · rw [if_pos hB]
      rw [show min (1 + k) 255 = k + 1 by omega]
      rw [if_pos (by omega)]
      rw [List.drop_replicate]
      simp [encode_rle]
    · rw [if_neg hB]
      rw [show min (1 + k) 255 = 255 by omega]
      rw [if_pos (by omega)]
      rw [List.drop_replicate]
      rw [show k - (255 - 1) = k + 1 - 255 by omega]

/-- C7 (counterexample): for `n = 511` (within the claimed range
`[1, 10^6]`), simple-framing RLE of 511 copies of `'A'` emits two
255-long run groups plus a literal — 7 bytes, exceeding the claimed 6:
runs are capped at 255 by the `run_length < 255` guard, so the output
grows by 3 bytes per 255 input bytes. -/
theorem rle_simple_A511 :
    (encode_rle (List.replicate 511 65)).length = 7 ∧
    ¬ (encode_rle (List.replicate 511 65)).length ≤ 6 := by
  have h : encode_rle (List.replicate 511 65) = [255, 255, 65, 255, 255, 65, 65] := by
    rw [encode_rle_replicate 65 511 (by decide) (by decide)]
    norm_num
    rw [encode_rle_replicate 65 256 (by decide) (by decide)]
    norm_num
    show encode_rle (List.replicate 1 65) = List.replicate 1 65
    rw [encode_rle_replicate 65 1 (by decide) (by decide)]
    norm_num
  rw [h]
  decide

/-- C7 (amended): for `n ∈ [1, 510]` the simple framing of `n` copies of
`'A'` fits in 6 bytes (one run group of up to 255 plus either a second run
group or up to two literals). -/
theorem rle_simple_run_bound (n : Nat) (h1 : 1 ≤ n) (h2 : n ≤ 510) :
    (encode_rle (List.replicate n 65)).length ≤ 6 := by
  rw [encode_rle_replicate 65 n (by decide) h1]
  by_cases hA : n < 3
  · rw [if_pos hA]; simp; omega
  · rw [if_neg hA]
    by_cases hB : n ≤ 255
    · rw [if_pos hB]; simp
    · rw [if_neg hB]
      rw [encode_rle_replicate 65 (n - 255) (by decide) (by omega)]
      by_cases hC : n - 255 < 3
      · rw [if_pos hC]
        simp only [List.length_append, List.length_cons, List.length_nil,
          List.length_replicate]
        omega
      · rw [if_neg hC, if_pos (by omega)]
        simp

theorem be32_reassemble (n : Nat) (hn : n < 2 ^ 32) :
    (((n >>> 24) &&& 255) <<< 24) ||| (((n >>> 16) &&& 255) <<< 16) |||
      (((n >>> 8) &&& 255) <<< 8) ||| (n &&& 255) = n := by
  have h255 : (255 : Nat) = 2 ^ 8 - 1 := rfl
  rw [h255]
  simp only [Nat.and_pow_two_sub_one_eq_mod, Nat.shiftLeft_eq,
    Nat.shiftRight_eq_div_pow]
  rw [Nat.lor_assoc, Nat.lor_assoc]
  rw [Nat.mul_comm (n / 2 ^ 8 % 2 ^ 8) (2 ^ 8)]
  rw [← Nat.mul_add_lt_is_or (by omega) (n / 2 ^ 8 % 2 ^ 8)]
  rw [Nat.mul_comm (n / 2 ^ 16 % 2 ^ 8) (2 ^ 16)]
  rw [← Nat.mul_add_lt_is_or (by omega) (n / 2 ^ 16 % 2 ^ 8)]
  rw [Nat.mul_comm (n / 2 ^ 24 % 2 ^ 8) (2 ^ 24)]
  rw [← Nat.mul_add_lt_is_or (by omega) (n / 2 ^ 24 % 2 ^ 8)]
  omega

theorem bump_same (b m : Nat) : bump b [(b, m)] = [(b, m + 1)] := by
  simp [bump]

theorem foldl_bump_replicate (b k : Nat) : ∀ m,
    List.foldl (fun acc x => bump x acc) [(b, m)] (List.replicate k b) =
      [(b, m + k)] := by
  induction k with
  | zero => intro m; simp
  | succ j ih =>
    intro m
    rw [List.replicate_succ, List.foldl_cons, bump_same, ih (m + 1)]
    congr 2
    omega

theorem freqList_replicate (b n : Nat) (hn : 1 ≤ n) :
    freqList (List.replicate n b) = [(b, n)] := by
  obtain ⟨k, rfl⟩ : ∃ k, n = k + 1 := ⟨n - 1, by omega⟩
  rw [List.replicate_succ]
  unfold freqList
  rw [List.foldl_cons]
  rw [show bump b [] = [(b, 1)] from rfl]
  rw [foldl_bump_replicate b k 1]
  congr 2
  omega

/-- C6: an input of `n` copies of one byte value (`1 ≤ n < 2^32`) Huffman-
compresses to exactly the 6 bytes `0x01, value, n_be32`, and decompressing
that frame reconstructs the `n` copies. -/
theorem huffman_degenerate (b n : Nat) (hb : b < 256) (h1 : 1 ≤ n)
    (h2 : n < 2 ^ 32) :
    huffman_compress (List.replicate n b) =
      .ok [1, b, (n >>> 24) &&& 255, (n >>> 16) &&& 255, (n >>> 8) &&& 255,
        n &&& 255] ∧
    ([1, b, (n >>> 24) &&& 255, (n >>> 16) &&& 255, (n >>> 8) &&& 255,
      n &&& 255] : List Nat).length = 6 ∧
    huffman_decompress [1, b, (n >>> 24) &&& 255, (n >>> 16) &&& 255,
      (n >>> 8) &&& 255, n &&& 255] = .ok (List.replicate n b) := by
  obtain ⟨k, rfl⟩ : ∃ k, n = k + 1 := ⟨n - 1, by omega⟩
  refine ⟨?_, by simp, ?_⟩
  · unfold huffman_compress
    rw [List.replicate_succ]
    rw [if_neg (by simp)]
    rw [← List.replicate_succ, freqList_replicate b (k + 1) (by omega)]
    simp [be32]
  · have hr : readBe32 [1, b, ((k + 1) >>> 24) &&& 255, ((k + 1) >>> 16) &&& 255,
        ((k + 1) >>> 8) &&& 255, (k + 1) &&& 255] 2 = k + 1 := by
      unfold readBe32
      simp only [List.getD_cons_zero, List.getD_cons_succ]
      exact be32_reassemble (k + 1) h2
    unfold huffman_decompress
    simp [hr]

/-- C7 (amended, witness): instantiation at `n = 510`. -/
theorem rle_simple_run_bound_witness :
    (encode_rle (List.replicate 510 65)).length ≤ 6 :=
  rle_simple_run_bound 510 (by decide) (by decide)

/-- C6 (witness): instantiation at 1000 copies of `'A'` (scenario S3 of the
spec: frame `01 41 00 00 03 E8`). -/
theorem huffman_degenerate_witness :
    huffman_compress (List.replicate 1000 65) =
      .ok [1, 65, (1000 >>> 24) &&& 255, (1000 >>> 16) &&& 255,
        (1000 >>> 8) &&& 255, 1000 &&& 255] ∧
    ([1, 65, (1000 >>> 24) &&& 255, (1000 >>> 16) &&& 255,
      (1000 >>> 8) &&& 255, 1000 &&& 255] : List Nat).length = 6 ∧
    huffman_decompress [1, 65, (1000 >>> 24) &&& 255, (1000 >>> 16) &&& 255,
      (1000 >>> 8) &&& 255, 1000 &&& 255] = .ok (List.replicate 1000 65) :=
  huffman_degenerate 65 1000 (by decide) (by decide) (by decide)

/-! ### Hybrid tournament and block structure (claims C4, C8) -/

theorem rle_compress_ok (lowE : Bool) (l : List Nat) (h : l ≠ []) :
    rle_compress lowE l =
      .ok (if lowE then encode_enhanced_rle l else encode_rle l) := by
  unfold rle_compress
  rw [if_neg (by simpa using h)]

theorem lz77_compressL_ok (l : List Nat) (h : l ≠ []) :
    lz77_compressL l = .ok (encode_matches (lz77_tokens (ByteVec.ofList l))) := by
  unfold lz77_compressL lz77_compress
  rw [if_neg (by simp [ByteVec.ofList]; exact h)]

theorem huffman_compress_ok (l : List Nat) (h : l ≠ []) :
    ∃ d, huffman_compress l = .ok d := by
  unfold huffman_compress
  rw [if_neg (by simpa using h)]
  by_cases hf : (freqList l).length = 1
  · exact ⟨_, by rw [if_pos hf]⟩
  · exact ⟨_, by rw [if_neg hf]⟩

/-- C4: for a `Mixed` block, `compress_block` runs RLE, LZ77 and Huffman —
all three succeed on a non-empty block — and emits the successful result
with the smallest compressed output, preferring RLE over LZ77 and LZ77
over Huffman on ties (the chosen output's length is the minimum of the
three).  `lowE` ranges over both outcomes of RLE's floating-point framing
choice. -/
theorem mixed_tournament (lowE : Bool) (block : List Nat) (hne : block ≠ []) :
    ∃ r z h, rle_compress lowE block = .ok r ∧
      lz77_compressL block = .ok z ∧ huffman_compress block = .ok h ∧
      compress_block lowE block .MIXED =
        (if r.length ≤ z.length ∧ r.length ≤ h.length then r
         else if z.length ≤ h.length then z else h) ∧
      (compress_block lowE block .MIXED).length =
        min r.length (min z.length h.length) := by
  obtain ⟨h, hH⟩ := huffman_compress_ok block hne
  have hR := rle_compress_ok lowE block hne
  have hZ := lz77_compressL_ok block hne
  refine ⟨_, _, h, hR, hZ, hH, ?_, ?_⟩
  · unfold compress_block
    simp only [hR, hZ, hH, resOk, resSize]
    split_ifs <;> simp_all
  · unfold compress_block
    simp only [hR, hZ, hH, resOk, resSize]
    split_ifs <;> simp_all <;> omega

theorem diffBytes_length (l : List Nat) : ∀ p, (diffBytes p l).length = l.length := by
  induction l with
  | nil => intro p; rfl
  | cons x rest ih => intro p; simp [diffBytes, ih]

theorem apply_preprocessing_length (l : List Nat) :
    (apply_preprocessing l).length = l.length := by
  unfold apply_preprocessing
  by_cases h : l.length < 2
  · rw [if_pos h]
  · rw [if_neg h]
    cases l with
    | nil => rfl
    | cons b rest => simp [diffBytes_length]

theorem analyze_single (classify : List Nat → BlockType) (input : List Nat)
    (bs : Nat) (h1 : input ≠ []) (hbs : input.length ≤ bs) :
    analyze_input classify input bs = [(classify input, 0, input.length)] := by
  unfold analyze_input
  obtain ⟨k, hk⟩ : ∃ k, input.length = k + 1 :=
    ⟨input.length - 1, by cases input with | nil => exact absurd rfl h1 | cons a l => simp⟩
  rw [hk]
  rw [analyzeLoop]
  rw [if_pos (by omega)]
  rw [show min bs (input.length - 0) = input.length by omega]
  rw [analyzeLoop]
  rw [if_neg (by omega)]
  simp
  exact hk

/-- C8: for non-empty input shorter than 4096 bytes, the Hybrid frame
declares exactly one block (`HYBR` followed by `block_count_be32 = 1`),
the partition of the preprocessed input has exactly one element, and the
chosen block size follows `max(4096, n/4)` for `n < 16384`, `16384` for
`n < 1048576`, else `min(65536, n/64)` — for every classifier and framing
oracle. -/
theorem hybrid_single_block (classify : List Nat → BlockType)
    (lowEOf : List Nat → Bool) (input : List Nat)
    (h1 : input ≠ []) (h2 : input.length < 4096) :
    (hybrid_compress classify lowEOf input).map (fun d => d.take 8) =
      .ok [72, 89, 66, 82, 0, 0, 0, 1] ∧
    (analyze_input classify (apply_preprocessing input)
      (get_optimal_block_size input.length)).length = 1 ∧
    ∀ n, get_optimal_block_size n =
      (if n < 16384 then max 4096 (n / 4)
       else if n < 1048576 then 16384
       else min 65536 (n / 64)) := by
  have hgobs : get_optimal_block_size input.length = 4096 := by
    unfold get_optimal_block_size
    rw [if_pos (by omega)]
    simp only [MIN_BLOCK_SIZE]
    omega
  have hpre : apply_preprocessing input ≠ [] := by
    intro hc
    have := apply_preprocessing_length input
    rw [hc] at this
    simp at this
    exact h1 (List.eq_nil_of_length_eq_zero this.symm)
  have hana : analyze_input classify (apply_preprocessing input)
      (get_optimal_block_size input.length) =
      [(classify (apply_preprocessing input), 0, (apply_preprocessing input).length)] := by
    rw [hgobs]
    exact analyze_single classify _ 4096 hpre (by rw [apply_preprocessing_length]; omega)
  refine ⟨?_, by rw [hana]; rfl, fun n => rfl⟩
  unfold hybrid_compress
  rw [if_neg (by simpa using h1)]
  simp only [hana]
  rw [show ([(classify (apply_preprocessing input), 0,
    (apply_preprocessing input).length)] : List (BlockType × Nat × Nat)).length = 1
    from rfl]
  rfl

/-! ### Huffman tree serialization length (claim C10) -/

theorem leafCount_pos : ∀ t, 1 ≤ leafCount t := by
  intro t
  induction t with
  | leaf b => exact le_refl 1
  | node l r ihl ihr => simp only [leafCount]; omega

theorem serialize_tree_length_eq (t : HTree) :
    (serialize_tree t).length = 3 * leafCount t - 1 := by
  induction t with
  | leaf b => rfl
  | node l r ihl ihr =>
    have hl := leafCount_pos l
    have hr := leafCount_pos r
    simp only [serialize_tree, leafCount, List.length_cons, List.length_append,
      ihl, ihr]
    omega

theorem pqInsert_length (x : Nat × HTree) :
    ∀ l, (pqInsert x l).length = l.length + 1 := by
  intro l
  induction l with
  | nil => rfl
  | cons y rest ih =>
    rw [pqInsert]
    split
    · simp [ih]
    · simp

theorem pqInsert_sumLC (x : Nat × HTree) :
    ∀ l, sumLC (pqInsert x l) = leafCount x.2 + sumLC l := by
  intro l
  induction l with
  | nil => rfl
  | cons y rest ih =>
    rw [pqInsert]
    split
    · simp only [sumLC, List.map_cons, List.sum_cons] at ih ⊢
      omega
    · simp only [sumLC, List.map_cons, List.sum_cons]

theorem buildLoop_leafCount : ∀ fuel pq, pq ≠ [] → pq.length ≤ fuel + 1 →
    leafCount (buildLoop fuel pq) = sumLC pq := by
  intro fuel
  induction fuel with
  | zero =>
    intro pq hne hlen
    match pq, hne with
    | [t], _ => simp [buildLoop, sumLC]
    | t1 :: t2 :: rest, _ => simp at hlen
  | succ n ih =>
    intro pq hne hlen
    match pq, hne with
    | [t], _ => simp [buildLoop, sumLC]
    | a :: b :: rest, _ =>
      rw [buildLoop]
      rw [ih _ (by
          intro hc
          have := pqInsert_length (a.1 + b.1, HTree.node b.2 a.2) rest
          rw [hc] at this
          simp at this)
        (by
          have := pqInsert_length (a.1 + b.1, HTree.node b.2 a.2) rest
          simp at hlen
          omega)]
      rw [pqInsert_sumLC]
      simp only [sumLC, List.map_cons, List.sum_cons, leafCount]
      omega

theorem foldl_pqInsert_length (freqs : List (Nat × Nat)) : ∀ acc,
    (freqs.foldl (fun acc e => pqInsert (e.2, HTree.leaf e.1) acc) acc).length =
      acc.length + freqs.length := by
  induction freqs with
  | nil => intro acc; simp
  | cons e rest ih =>
    intro acc
    rw [List.foldl_cons, ih, pqInsert_length]
    simp
    omega

theorem foldl_pqInsert_sumLC (freqs : List (Nat × Nat)) : ∀ acc,
    sumLC (freqs.foldl (fun acc e => pqInsert (e.2, HTree.leaf e.1) acc) acc) =
      sumLC acc + freqs.length := by
  induction freqs with
  | nil => intro acc; simp
  | cons e rest ih =>
    intro acc
    rw [List.foldl_cons, ih, pqInsert_sumLC]
    simp only [leafCount, List.length_cons]
    omega

theorem build_tree_leafCount (freqs : List (Nat × Nat)) (h : freqs ≠ []) :
    leafCount (build_tree freqs) = freqs.length := by
  unfold build_tree
  rw [buildLoop_leafCount _ _ ?hne (by omega)]
  · rw [foldl_pqInsert_sumLC]
    simp [sumLC]
  case hne =>
    intro hc
    have := foldl_pqInsert_length freqs []
    rw [hc] at this
    simp at this
    exact h (List.eq_nil_of_length_eq_zero this.symm)

/-- C10: a Huffman tree built from a frequency table with `k ≥ 2` entries
(in any iteration order) serializes to exactly `3k - 1` bytes — 2 per
leaf, 1 per each of the `k - 1` internal nodes — hence at most 767 bytes
when `k ≤ 256`, always fitting the 16-bit tree-size field. -/
theorem huffman_tree_serialization_length (freqs : List (Nat × Nat))
    (h2 : 2 ≤ freqs.length) :
    (serialize_tree (build_tree freqs)).length = 3 * freqs.length - 1 ∧
    (freqs.length ≤ 256 → (serialize_tree (build_tree freqs)).length ≤ 767) := by
  have hlc := build_tree_leafCount freqs (by
    intro hc; rw [hc] at h2; simp at h2)
  have hser := serialize_tree_length_eq (build_tree freqs)
  rw [hlc] at hser
  exact ⟨hser, fun h256 => by omega⟩

/-- C4 (witness): instantiation at the 1-byte block `[0]`; RLE wins with
3 bytes against LZ77's 10 and Huffman's 6. -/
theorem mixed_tournament_witness :
    ∃ r z h, rle_compress false [0] = .ok r ∧
      lz77_compressL [0] = .ok z ∧ huffman_compress [0] = .ok h ∧
      compress_block false [0] .MIXED =
        (if r.length ≤ z.length ∧ r.length ≤ h.length then r
         else if z.length ≤ h.length then z else h) ∧
      (compress_block false [0] .MIXED).length =
        min r.length (min z.length h.length) :=
  mixed_tournament false [0] (by decide)

/-- C8 (witness): instantiation at the 5-byte input `[1, 2, 3, 4, 5]` with
the constant `MIXED` classifier. -/
theorem hybrid_single_block_witness :
    (hybrid_compress (fun _ => BlockType.MIXED) (fun _ => false)
        [1, 2, 3, 4, 5]).map (fun d => d.take 8) =
      .ok [72, 89, 66, 82, 0, 0, 0, 1] ∧
    (analyze_input (fun _ => BlockType.MIXED)
      (apply_preprocessing [1, 2, 3, 4, 5])
      (get_optimal_block_size ([1, 2, 3, 4, 5] : List Nat).length)).length = 1 ∧
    ∀ n, get_optimal_block_size n =
      (if n < 16384 then max 4096 (n / 4)
       else if n < 1048576 then 16384
       else min 65536 (n / 64)) :=
  hybrid_single_block (fun _ => BlockType.MIXED) (fun _ => false)
    [1, 2, 3, 4, 5] (by decide) (by decide)

/-- C10 (witness): instantiation at the two-symbol table `[(97,1), (98,2)]`
(serialization `00 01 61 01 62`, 5 = 3·2 − 1 bytes). -/
theorem huffman_tree_serialization_length_witness :
    (serialize_tree (build_tree [(97, 1), (98, 2)])).length =
      3 * ([(97, 1), (98, 2)] : List (Nat × Nat)).length - 1 ∧
    (([(97, 1), (98, 2)] : List (Nat × Nat)).length ≤ 256 →
      (serialize_tree (build_tree [(97, 1), (98, 2)])).length ≤ 767) :=
  huffman_tree_serialization_length [(97, 1), (98, 2)] (by decide)

end Compressor
